import Mathlib

/-!
Verification of the `eyeint` integer-inspection library.

The development shallowly embeds the core of the repository:
`src/int.rs` (construction, two's-complement transform) and
`src/format.rs` (radix rendering).  Bit sequences are `List Bool`
with index 0 the least-significant bit, exactly the `Lsb0` view used
by the source; the CLI instantiates the generic storage type at
`u64`, so the native width is fixed at 64 bits here.
-/

namespace Eyeint

/-- The LSB-first bit view of a 64-bit native value
(`elem.view_bits_mut::<Lsb0>()` in `Integer::new`), generalised over
the width `w` of the backing store. -/
def natToBits (w : Nat) (n : Nat) : List Bool :=
  (List.range w).map n.testBit

/-- `BitSlice::trailing_zeros` of the `bitvec` crate: the number of
clear bits at the back (highest indices) of the slice. -/
def trailingZeros (l : List Bool) : Nat :=
  (l.reverse.takeWhile (fun b => !b)).length

/-- `BitSlice::first_one` of the `bitvec` crate: the index of the
first (lowest-index) set bit, if any. -/
def first_one : List Bool → Option Nat
  | [] => none
  | true :: _ => some 0
  | false :: xs => (first_one xs).map (· + 1)

/-- `make_slice_twos_complement` (src/int.rs): every bit strictly
above the first set bit is inverted; an all-zero slice is unchanged. -/
def make_slice_twos_complement (l : List Bool) : List Bool :=
  match first_one l with
  | none => l
  | some i => l.take (i + 1) ++ (l.drop (i + 1)).map (fun b => !b)

/-- `IntegerOptions` (src/int.rs). -/
structure IntegerOptions where
  signed : Bool
  size : Nat
  significant_bits : Option Nat
  sign_extend : Bool

/-- `Integer` (src/int.rs): a bit sequence plus a cached sign flag. -/
structure Integer where
  bits : List Bool
  negative : Bool

/-- The sign-extension loop of `Integer::new`: every bit with index in
`[lo, hi)` is set to `1`, the rest are unchanged. -/
def fillOnes (l : List Bool) (lo hi : Nat) : List Bool :=
  l.mapIdx (fun i b => if lo ≤ i ∧ i < hi then true else b)

/-- The significant-bit inference of `Integer::new`
(`bitslice.len() - bitslice.trailing_zeros()`). -/
def inferred_significant_bits (bitslice : List Bool) : Nat :=
  bitslice.length - trailingZeros bitslice

/-- `Integer::new` (src/int.rs), at the `u64` instantiation used by
the CLI, so the backing store is 64 bits wide.  The source asserts
`size_of::<T>() * 8 >= options.size`; theorems carry the
corresponding `options.size ≤ 64` hypothesis. -/
def Integer.new (elem : Nat) (options : IntegerOptions) : Integer :=
  let bitslice := natToBits 64 elem
  let significant_bits :=
    options.significant_bits.getD (inferred_significant_bits bitslice)
  let bitslice :=
    if options.sign_extend ∧ significant_bits < options.size then
      fillOnes bitslice significant_bits options.size
    else bitslice
  let bits := bitslice.take options.size
  { bits := bits
    negative := options.signed && bits.getLastD false }

/-- `Integer::twos_complement` (src/int.rs): the pure form, returning
a fresh bit sequence and leaving the receiver untouched. -/
def Integer.twos_complement (i : Integer) : List Bool :=
  make_slice_twos_complement i.bits

/-- `Integer::make_twos_complement` followed by
`update_negative_prop` (src/int.rs): the bits are transformed in
place and `negative` becomes `negative && (new MSB set)`. -/
def Integer.make_twos_complement (i : Integer) : Integer :=
  let bits := make_slice_twos_complement i.bits
  { bits := bits
    negative := i.negative && bits.getLastD false }

/-- `Integer::bits` accessor (src/int.rs): the bit-sequence length. -/
def Integer.bitCount (i : Integer) : Nat :=
  i.bits.length

/-- `Integer::is_negative` accessor (src/int.rs). -/
def Integer.is_negative (i : Integer) : Bool :=
  i.negative

/-- `int_from_slice` (src/int.rs) at the `u64` target: for each bit
the loop ORs `(bit as u8 as u64) << idx` into the accumulator. -/
def int_from_slice (l : List Bool) : Nat :=
  l.enum.foldl (fun num p => num ||| ((if p.2 then 1 else 0) <<< p.1)) 0

/-- The `as i64` reinterpretation of a `u64` value. -/
def toI64 (n : Nat) : Int :=
  if n < 2 ^ 63 then (n : Int) else (n : Int) - 2 ^ 64

/-- Two's-complement (wrapping) `i64` negation, the release-mode
behaviour of the `-` in `impl Display`. -/
def i64Neg (x : Int) : Int :=
  (-x + 2 ^ 63) % 2 ^ 64 - 2 ^ 63

/-- `impl Display for Integer` (src/format.rs): decimal rendering. -/
def Integer.display (i : Integer) : String :=
  if i.is_negative then
    toString (i64Neg (toI64 (int_from_slice i.twos_complement)))
  else
    toString (int_from_slice i.bits)

/-- `BitSlice::chunks(n)` of the `bitvec` crate: `⌈len / n⌉`
consecutive groups of `n` bits starting at index 0, the `i`-th group
covering indices `[i * n, i * n + n)`; the last group may be
shorter. -/
def chunks (n : Nat) (l : List Bool) : List (List Bool) :=
  (List.range ((l.length + n - 1) / n)).map
    (fun i => (l.drop (i * n)).take n)

/-- `char::from_digit` for the digits `0`–`9`, `a`–`f`. -/
def charFromDigit (n : Nat) : Char :=
  if n < 10 then Char.ofNat (48 + n) else Char.ofNat (87 + n)

/-- `bits_to_char` (src/format.rs): a bit group as one digit
character of the given radix.  `char::from_digit` yields `None` (a
panic through `expect` in the source) when the value reaches the
radix; that branch is represented by a junk character and is proved
unreachable for the groupings the renderers use. -/
def bits_to_char (slice : List Bool) (radix : Nat) : Char :=
  if int_from_slice slice < radix then charFromDigit (int_from_slice slice)
  else '?'

/-- `char::to_ascii_lowercase`. -/
def to_ascii_lowercase (c : Char) : Char :=
  if 'A' ≤ c ∧ c ≤ 'Z' then Char.ofNat (c.toNat + 32) else c

/-- `impl Binary for Integer` (src/format.rs). -/
def Integer.fmtBinary (i : Integer) : String :=
  String.mk (i.bits.reverse.map (fun b => if b then '1' else '0'))

/-- `impl Octal for Integer` (src/format.rs). -/
def Integer.fmtOctal (i : Integer) : String :=
  String.mk (((chunks 3 i.bits).map (fun c => bits_to_char c 8)).reverse)

/-- `impl LowerHex for Integer` (src/format.rs). -/
def Integer.fmtLowerHex (i : Integer) : String :=
  String.mk (((chunks 4 i.bits).map (fun c => bits_to_char c 16)).reverse)

/-- `impl UpperHex for Integer` (src/format.rs): note the digit is
lower-cased, not upper-cased. -/
def Integer.fmtUpperHex (i : Integer) : String :=
  String.mk
    (((chunks 4 i.bits).map
        (fun c => to_ascii_lowercase (bits_to_char c 16))).reverse)

/-- `FormatBits::binary_string` (src/format.rs). -/
def Integer.binary_string (i : Integer) : String :=
  String.mk (i.bits.reverse.map (fun b => if b then '1' else '0'))

/-- `FormatBits::octal_string` (src/format.rs). -/
def Integer.octal_string (i : Integer) : String :=
  String.mk (((chunks 3 i.bits).map (fun c => bits_to_char c 8)).reverse)

/-- `FormatBits::hex_string` (src/format.rs). -/
def Integer.hex_string (i : Integer) : String :=
  String.mk (((chunks 4 i.bits).map (fun c => bits_to_char c 16)).reverse)

/-- Specification-side value of an LSB-first bit sequence: the usual
binary interpretation. -/
def bitsToNat : List Bool → Nat
  | [] => 0
  | b :: l => (if b then 1 else 0) + 2 * bitsToNat l

/-- Recursive characterisation of the two's-complement transform:
leading clear bits and the first set bit are kept, the tail is
inverted. -/
def tcAux : List Bool → List Bool
  | [] => []
  | false :: xs => false :: tcAux xs
  | true :: xs => true :: xs.map (fun b => !b)

/-! ### Lemmas about `first_one` and the two's-complement transform -/

theorem first_one_none_iff (l : List Bool) :
    first_one l = none ↔ ∀ b ∈ l, b = false := by
  induction l with
  | nil => simp [first_one]
  | cons x xs ih =>
    cases x with
    | true => simp [first_one]
    | false => simp [first_one, ih]

theorem first_one_lt_length {l : List Bool} {k : Nat}
    (h : first_one l = some k) : k < l.length := by
  induction l generalizing k with
  | nil => simp [first_one] at h
  | cons x xs ih =>
    cases x with
    | true =>
      simp only [first_one, Option.some.injEq] at h
      subst h
      simp
    | false =>
      simp only [first_one, Option.map_eq_some'] at h
      obtain ⟨m, hm, rfl⟩ := h
      have := ih hm
      simp only [List.length_cons]
      omega

theorem first_one_spec {l : List Bool} {k : Nat}
    (h : first_one l = some k) :
    l.getD k false = true ∧ ∀ j, j < k → l.getD j false = false := by
  induction l generalizing k with
  | nil => simp [first_one] at h
  | cons x xs ih =>
    cases x with
    | true =>
      simp [first_one] at h
      subst h
      simp
    | false =>
      simp only [first_one, Option.map_eq_some'] at h
      obtain ⟨m, hm, rfl⟩ := h
      obtain ⟨h1, h2⟩ := ih hm
      refine ⟨by simpa using h1, ?_⟩
      intro j hj
      cases j with
      | zero => simp
      | succ j =>
        have := h2 j (by omega)
        simpa using this

theorem mstc_eq_tcAux (l : List Bool) :
    make_slice_twos_complement l = tcAux l := by
  induction l with
  | nil => rfl
  | cons x xs ih =>
    cases x with
    | true => simp [make_slice_twos_complement, first_one, tcAux]
    | false =>
      cases h : first_one xs with
      | none =>
        have hx : make_slice_twos_complement xs = xs := by
          simp [make_slice_twos_complement, h]
        simp only [make_slice_twos_complement, first_one, h, Option.map_none',
          tcAux, ← ih, hx]
      | some m =>
        have hx : make_slice_twos_complement xs
            = xs.take (m + 1) ++ (xs.drop (m + 1)).map (fun b => !b) := by
          simp [make_slice_twos_complement, h]
        simp only [make_slice_twos_complement, first_one, h, Option.map_some',
          tcAux, ← ih, hx, List.take_succ_cons, List.drop_succ_cons,
          List.cons_append]

theorem tcAux_involutive (l : List Bool) : tcAux (tcAux l) = l := by
  induction l with
  | nil => rfl
  | cons x xs ih =>
    cases x with
    | false => simp [tcAux, ih]
    | true => simp [tcAux, List.map_map, Function.comp_def]

theorem mstc_length (l : List Bool) :
    (make_slice_twos_complement l).length = l.length := by
  unfold make_slice_twos_complement
  cases h : first_one l with
  | none => rfl
  | some k =>
    have hk := first_one_lt_length h
    simp only [List.length_append, List.length_take, List.length_map,
      List.length_drop]
    omega

theorem mstc_getD_of_le {l : List Bool} {k : Nat}
    (h : first_one l = some k) {j : Nat} (hj : j ≤ k) :
    (make_slice_twos_complement l).getD j false = l.getD j false := by
  have hk := first_one_lt_length h
  unfold make_slice_twos_complement
  rw [h]
  have hlen : (l.take (k + 1)).length = k + 1 := by
    simp only [List.length_take]
    omega
  rw [List.getD_eq_getElem?_getD, List.getD_eq_getElem?_getD,
    List.getElem?_append_left (by omega : j < (l.take (k + 1)).length),
    List.getElem?_take_of_lt (by omega : j < k + 1)]

theorem mstc_getD_of_gt {l : List Bool} {k : Nat}
    (h : first_one l = some k) {j : Nat} (h1 : k < j) (h2 : j < l.length) :
    (make_slice_twos_complement l).getD j false = !(l.getD j false) := by
  have hk := first_one_lt_length h
  unfold make_slice_twos_complement
  rw [h]
  have hlen : (l.take (k + 1)).length = k + 1 := by
    simp only [List.length_take]
    omega
  rw [List.getD_eq_getElem?_getD, List.getD_eq_getElem?_getD,
    List.getElem?_append_right (by omega : (l.take (k + 1)).length ≤ j),
    hlen, List.getElem?_map, List.getElem?_drop,
    show k + 1 + (j - (k + 1)) = j by omega,
    List.getElem?_eq_getElem h2]
  rfl

/-! ### Claim theorems: the two's-complement transform -/

/-- Claim C1: the pure `twos_complement` returns a bit sequence of the
same length whose bits agree with the original up to and including the
lowest set bit and are inverted at every strictly higher index; an
all-zero sequence is returned unchanged.  (The operation is pure: the
receiver's `bits` and `negative` are not touched, which the embedding
reflects by `Integer.twos_complement` merely returning a new list.) -/
theorem twos_complement_spec (i : Integer) :
    i.twos_complement.length = i.bits.length
    ∧ ((∀ b ∈ i.bits, b = false) → i.twos_complement = i.bits)
    ∧ ∀ k, first_one i.bits = some k →
        (i.bits.getD k false = true ∧ ∀ j, j < k → i.bits.getD j false = false)
        ∧ (∀ j, j ≤ k → i.twos_complement.getD j false = i.bits.getD j false)
        ∧ (∀ j, k < j → j < i.bits.length →
            i.twos_complement.getD j false = !(i.bits.getD j false)) := by
  refine ⟨mstc_length i.bits, ?_, ?_⟩
  · intro h
    show make_slice_twos_complement i.bits = i.bits
    unfold make_slice_twos_complement
    rw [(first_one_none_iff i.bits).mpr h]
  · intro k hk
    exact ⟨first_one_spec hk,
      fun j hj => mstc_getD_of_le hk hj,
      fun j h1 h2 => mstc_getD_of_gt hk h1 h2⟩

/-- Witness for C1 at the concrete value `⟨[false, true, true], false⟩`
(lowest set bit at index 1): the bit above it is inverted. -/
theorem twos_complement_spec_witness :
    first_one [false, true, true] = some 1
    ∧ (Integer.twos_complement ⟨[false, true, true], false⟩).getD 2 false
        = !(([false, true, true] : List Bool).getD 2 false) := by
  refine ⟨by decide, ?_⟩
  exact ((twos_complement_spec ⟨[false, true, true], false⟩).2.2 1
    (by decide)).2.2 2 (by decide) (by decide)

/-- Claim C7: applying the pure two's-complement transform twice
restores any bit sequence exactly. -/
theorem make_slice_twos_complement_involutive (l : List Bool) :
    make_slice_twos_complement (make_slice_twos_complement l) = l := by
  rw [mstc_eq_tcAux, mstc_eq_tcAux, tcAux_involutive]

/-- Claim C2: after `make_twos_complement` the flag equals
`old negative && new MSB`; a `false` flag stays `false`, and a `true`
flag becomes `false` exactly when the transform clears the MSB. -/
theorem make_twos_complement_negative_rule (i : Integer) :
    i.make_twos_complement.negative
        = (i.negative && i.make_twos_complement.bits.getLastD false)
    ∧ (i.negative = false → i.make_twos_complement.negative = false)
    ∧ (i.negative = true →
        (i.make_twos_complement.negative = false
          ↔ i.make_twos_complement.bits.getLastD false = false)) := by
  refine ⟨rfl, ?_, ?_⟩
  · intro h
    simp [Integer.make_twos_complement, h]
  · intro h
    simp [Integer.make_twos_complement, h]

/-- Witness for C2 at `⟨[true, true], true⟩`: the transform yields
`[true, false]`, clearing the MSB, so the flag drops to `false`. -/
theorem make_twos_complement_negative_rule_witness :
    (Integer.make_twos_complement ⟨[true, true], true⟩).negative = false := by
  exact ((make_twos_complement_negative_rule ⟨[true, true], true⟩).2.2
    rfl).mpr (by decide)

/-- Claim C9: the plain-string renderers are byte-identical to the
formatter-integrated ones; in the source both sides are the same
duplicated code, so the embedded definitions coincide literally. -/
theorem plain_strings_eq_formatter (i : Integer) :
    i.binary_string = i.fmtBinary ∧ i.octal_string = i.fmtOctal
      ∧ i.hex_string = i.fmtLowerHex :=
  ⟨rfl, rfl, rfl⟩

/-! ### The bit-slice-to-integer helper computes the binary value -/

theorem int_from_slice_go (l : List Bool) :
    ∀ (n acc : Nat), acc < 2 ^ n →
      (l.enumFrom n).foldl
          (fun num p => num ||| ((if p.2 then 1 else 0) <<< p.1)) acc
        = acc + 2 ^ n * bitsToNat l := by
  induction l with
  | nil =>
    intro n acc _
    simp [bitsToNat]
  | cons b xs ih =>
    intro n acc hacc
    rw [List.enumFrom_cons, List.foldl_cons]
    have hstep : acc ||| ((if b then 1 else 0) <<< n)
        = 2 ^ n * (if b then 1 else 0) + acc := by
      rw [Nat.shiftLeft_eq, Nat.mul_comm, Nat.lor_comm,
        ← Nat.mul_add_lt_is_or hacc]
    rw [hstep, ih (n + 1) _ (by cases b <;> simp [Nat.pow_succ] <;> omega)]
    cases b <;> simp [bitsToNat, Nat.pow_succ] <;> ring

theorem int_from_slice_eq_bitsToNat (l : List Bool) :
    int_from_slice l = bitsToNat l := by
  have h := int_from_slice_go l 0 0 (by simp)
  simpa [int_from_slice, List.enum] using h

/-- Claim C3: for an integer of at most 64 bits, the decimal rendering
is the base-10 rendering of the `i64` negation of the signed-64-bit
reinterpretation of the unsigned value of the pure two's-complement
copy when the value is negative, and the base-10 rendering of the
unsigned value of the stored bits otherwise. -/
theorem display_decimal_spec (i : Integer) (h : i.bits.length ≤ 64) :
    i.display =
      if i.is_negative then
        toString (i64Neg (toI64 (bitsToNat i.twos_complement)))
      else
        toString (bitsToNat i.bits) := by
  unfold Integer.display
  rw [int_from_slice_eq_bitsToNat, int_from_slice_eq_bitsToNat]

/-- Witness for C3 at the 4-bit negative value `⟨[true, true, false,
true], true⟩` (bit pattern 11, two's complement 5): it renders
`"-5"`. -/
theorem display_decimal_spec_witness :
    ([true, true, false, true] : List Bool).length ≤ 64
    ∧ (Integer.display ⟨[true, true, false, true], true⟩) = "-5" := by
  refine ⟨by decide, ?_⟩
  rw [display_decimal_spec ⟨[true, true, false, true], true⟩ (by decide)]
  decide

/-! ### Significant-bit inference -/

/-- Specification-side significant-bit count: position of the highest
set bit plus one, or `0` for the zero value. -/
def sigBits (v : Nat) : Nat :=
  if v = 0 then 0 else Nat.log2 v + 1

theorem natToBits_length (w n : Nat) : (natToBits w n).length = w := by
  simp [natToBits]

theorem natToBits_succ (w v : Nat) :
    natToBits (w + 1) v = natToBits w v ++ [v.testBit w] := by
  simp [natToBits, List.range_succ]

theorem trailingZeros_append_one (l : List Bool) (b : Bool) :
    trailingZeros (l ++ [b]) = if b then 0 else trailingZeros l + 1 := by
  unfold trailingZeros
  rw [List.reverse_append]
  cases b <;> simp [List.takeWhile_cons]

theorem testBit_true_of_between {v w : Nat} (h1 : 2 ^ w ≤ v)
    (h2 : v < 2 ^ (w + 1)) : v.testBit w = true := by
  rw [Nat.testBit_to_div_mod]
  have hdiv : v / 2 ^ w = 1 := by
    refine Nat.div_eq_of_lt_le (by simpa using h1) ?_
    rw [Nat.pow_succ] at h2
    omega
  simp [hdiv]

theorem sigBits_le {v w : Nat} (h : v < 2 ^ w) : sigBits v ≤ w := by
  unfold sigBits
  split
  · omega
  · next hv =>
    have := (Nat.log2_lt hv).2 h
    omega

theorem trailingZeros_natToBits {w v : Nat} (h : v < 2 ^ w) :
    trailingZeros (natToBits w v) = w - sigBits v := by
  induction w with
  | zero =>
    have hv : v = 0 := by omega
    subst hv
    simp [natToBits, trailingZeros, sigBits]
  | succ w ih =>
    rw [natToBits_succ, trailingZeros_append_one]
    cases hb : v.testBit w with
    | true =>
      have hge : 2 ^ w ≤ v := by
        by_contra hlt
        rw [Nat.testBit_lt_two_pow (by omega)] at hb
        cases hb
      have hv : v ≠ 0 := by
        have : 0 < 2 ^ w := Nat.pos_pow_of_pos w (by omega)
        omega
      have hlog : Nat.log2 v = w := by
        have hle := (Nat.le_log2 hv).2 hge
        have hlt := (Nat.log2_lt hv).2 h
        omega
      simp [sigBits, hv, hlog]
    | false =>
      have hlt : v < 2 ^ w := by
        by_contra hge
        rw [testBit_true_of_between (by omega) h] at hb
        cases hb
      have hs := sigBits_le hlt
      rw [if_neg (by simp), ih hlt]
      omega

/-- Claim C5: with `significant_bits` absent, construction infers the
count as slice length minus the trailing-zero count of the LSB-first
view, which equals the position of the highest set bit plus one (the
bit at that position is set and all higher bits are clear), and `0`
for the zero value. -/
theorem inferred_significant_bits_spec (v : Nat) (h : v < 2 ^ 64) :
    inferred_significant_bits (natToBits 64 v) = sigBits v
    ∧ (v = 0 → sigBits v = 0)
    ∧ (v ≠ 0 →
        sigBits v = Nat.log2 v + 1
        ∧ v.testBit (Nat.log2 v) = true
        ∧ ∀ j, Nat.log2 v < j → v.testBit j = false) := by
  refine ⟨?_, ?_, ?_⟩
  · unfold inferred_significant_bits
    rw [trailingZeros_natToBits h, natToBits_length]
    have := sigBits_le h
    omega
  · intro hv
    simp [sigBits, hv]
  · intro hv
    refine ⟨by simp [sigBits, hv], ?_, ?_⟩
    · exact testBit_true_of_between (Nat.log2_self_le hv) Nat.lt_log2_self
    · intro j hj
      apply Nat.testBit_lt_two_pow
      calc v < 2 ^ (Nat.log2 v + 1) := Nat.lt_log2_self
      _ ≤ 2 ^ j := Nat.pow_le_pow_right (by omega) (by omega)

/-- Witness for C5 at `v = 10`: four significant bits are inferred. -/
theorem inferred_significant_bits_spec_witness :
    (10 : Nat) < 2 ^ 64
    ∧ inferred_significant_bits (natToBits 64 10) = 4 := by
  refine ⟨by norm_num, ?_⟩
  rw [(inferred_significant_bits_spec 10 (by norm_num)).1]
  have h1 := (Nat.le_log2 (by norm_num : (10 : Nat) ≠ 0)).2
    (by norm_num : 2 ^ 3 ≤ 10)
  have h2 := (Nat.log2_lt (by norm_num : (10 : Nat) ≠ 0)).2
    (by norm_num : 10 < 2 ^ 4)
  unfold sigBits
  rw [if_neg (by norm_num)]
  omega

/-! ### Construction: sign extension and width -/

/-- Claim C6: when `sign_extend` is requested and `size` exceeds the
(supplied or inferred) significant-bit count, every bit of the
constructed integer with index in `[significant_bits, size)` is `1`,
whatever the source value is. -/
theorem sign_extend_fills_ones (elem : Nat) (options : IntegerOptions)
    (hsz : options.size ≤ 64) (hse : options.sign_extend = true)
    (hgt : options.significant_bits.getD
        (inferred_significant_bits (natToBits 64 elem)) < options.size) :
    ∀ j, options.significant_bits.getD
        (inferred_significant_bits (natToBits 64 elem)) ≤ j →
      j < options.size →
      (Integer.new elem options).bits.getD j false = true := by
  intro j hj1 hj2
  unfold Integer.new
  simp only []
  rw [if_pos ⟨hse, hgt⟩]
  rw [List.getD_eq_getElem?_getD, List.getElem?_take_of_lt hj2]
  unfold fillOnes
  rw [List.getElem?_mapIdx,
    List.getElem?_eq_getElem
      (show j < (natToBits 64 elem).length by rw [natToBits_length]; omega)]
  simp only [Option.map_some', Option.getD_some]
  rw [if_pos ⟨hj1, hj2⟩]

/-- Witness for C6 at `elem = 1`, unsigned, `size = 4`, inferred one
significant bit: bit 2 of the result is forced to `1`. -/
theorem sign_extend_fills_ones_witness :
    (⟨false, 4, none, true⟩ : IntegerOptions).size ≤ 64
    ∧ (Integer.new 1 ⟨false, 4, none, true⟩).bits.getD 2 false = true := by
  refine ⟨by norm_num, ?_⟩
  exact sign_extend_fills_ones 1 ⟨false, 4, none, true⟩ (by norm_num) rfl
    (by decide) 2 (by decide) (by decide)

theorem fillOnes_length (l : List Bool) (lo hi : Nat) :
    (fillOnes l lo hi).length = l.length := by
  simp [fillOnes]

theorem new_bits_length (elem : Nat) (options : IntegerOptions)
    (h : options.size ≤ 64) :
    (Integer.new elem options).bits.length = options.size := by
  unfold Integer.new
  simp only [List.length_take]
  split <;> simp [fillOnes_length, natToBits_length] <;> omega

theorem make_twos_complement_length (i : Integer) :
    i.make_twos_complement.bits.length = i.bits.length :=
  mstc_length i.bits

/-- Claim C8: for any width `w ∈ [1, 64]` and 64-bit source value,
construction with `size = w` yields `bits() = w`, and any number of
`make_twos_complement` applications leaves `bits()` unchanged. -/
theorem bits_length_invariant (elem : Nat) (options : IntegerOptions)
    (helem : elem < 2 ^ 64) (h1 : 1 ≤ options.size)
    (h64 : options.size ≤ 64) :
    ∀ n : Nat,
      (Integer.make_twos_complement^[n] (Integer.new elem options)).bitCount
        = options.size := by
  intro n
  induction n with
  | zero =>
    simpa [Integer.bitCount] using new_bits_length elem options h64
  | succ n ih =>
    rw [Function.iterate_succ_apply']
    unfold Integer.bitCount at ih ⊢
    rw [make_twos_complement_length, ih]

/-- Witness for C8 at `elem = 10`, `w = 4`, two transform
applications. -/
theorem bits_length_invariant_witness :
    (10 : Nat) < 2 ^ 64
    ∧ (Integer.make_twos_complement^[2]
        (Integer.new 10 ⟨false, 4, none, false⟩)).bitCount = 4 := by
  refine ⟨by norm_num, ?_⟩
  exact bits_length_invariant 10 ⟨false, 4, none, false⟩ (by norm_num)
    (by norm_num) (by norm_num) 2

/-! ### Hexadecimal rendering: digit case -/

theorem chunks_mem_length {n : Nat} {l c : List Bool}
    (h : c ∈ chunks n l) : c.length ≤ n := by
  unfold chunks at h
  simp only [List.mem_map, List.mem_range] at h
  obtain ⟨i, _, rfl⟩ := h
  simp only [List.length_take]
  omega

theorem bitsToNat_lt (l : List Bool) : bitsToNat l < 2 ^ l.length := by
  induction l with
  | nil => simp [bitsToNat]
  | cons b xs ih =>
    cases b <;> simp [bitsToNat, Nat.pow_succ] <;> omega

theorem lower_digit : ∀ n < 16,
    to_ascii_lowercase (charFromDigit n) = charFromDigit n := by
  decide

/-- Claim C10: the uppercase-hexadecimal formatter output is
byte-identical to the lowercase one — the digits produced are already
lowercase `0`–`9`, `a`–`f`, on which the source's
`to_ascii_lowercase` is the identity. -/
theorem upper_hex_eq_lower_hex (i : Integer) :
    i.fmtUpperHex = i.fmtLowerHex := by
  unfold Integer.fmtUpperHex Integer.fmtLowerHex
  have hdig : ∀ c ∈ chunks 4 i.bits,
      to_ascii_lowercase (bits_to_char c 16) = bits_to_char c 16 := by
    intro c hc
    have hlen := chunks_mem_length hc
    have hval : int_from_slice c < 16 := by
      rw [int_from_slice_eq_bitsToNat]
      calc bitsToNat c < 2 ^ c.length := bitsToNat_lt c
        _ ≤ 2 ^ 4 := Nat.pow_le_pow_right (by omega) hlen
    unfold bits_to_char
    rw [if_pos hval]
    exact lower_digit _ hval
  rw [List.map_congr_left hdig]

/-! ### The zero value -/

/-- Counterexample to claim C4 as stated: constructing `0` with the
width inferred from its significant bits gives a 0-bit integer whose
binary rendering is the empty string, not `"0"`. -/
theorem zero_inferred_width_binary_not_zero :
    (Integer.new 0
        ⟨false, inferred_significant_bits (natToBits 64 0), none,
          false⟩).binary_string ≠ "0" := by
  decide

/-- Claim C4 (amended): constructing `0` unsigned with width 1 renders
`"0"` in all four radixes; with the width inferred from its
significant bits (which is 0) the decimal rendering is `"0"` but the
binary, octal and hexadecimal renderings are the empty string. -/
theorem zero_rendering_amended :
    ((Integer.new 0 ⟨false, 1, none, false⟩).display = "0"
      ∧ (Integer.new 0 ⟨false, 1, none, false⟩).binary_string = "0"
      ∧ (Integer.new 0 ⟨false, 1, none, false⟩).octal_string = "0"
      ∧ (Integer.new 0 ⟨false, 1, none, false⟩).hex_string = "0")
    ∧ ((Integer.new 0
          ⟨false, inferred_significant_bits (natToBits 64 0), none,
            false⟩).display = "0"
      ∧ (Integer.new 0
          ⟨false, inferred_significant_bits (natToBits 64 0), none,
            false⟩).binary_string = ""
      ∧ (Integer.new 0
          ⟨false, inferred_significant_bits (natToBits 64 0), none,
            false⟩).octal_string = ""
      ∧ (Integer.new 0
          ⟨false, inferred_significant_bits (natToBits 64 0), none,
            false⟩).hex_string = "") := by
  decide

end Eyeint
